import Mathlib

/-
Shallow embedding of `simtrader_candle.py` (SimTrader, a single-file Flask
trading sandbox).  Monetary values and timestamps, which the program stores as
Python floats, are modelled as rationals; SQLite tables are modelled as Lean
lists.  The per-symbol tick table is represented by its ts-ascending view (the
program only ever reads ticks through `ORDER BY ts` queries, and the trimming
DELETE removes the oldest-by-ts rows, i.e. the front of the sorted view).
Holdings and trades are modelled for a single authenticated user: the SQL
queries of `api_trade` all filter on that user's id, so other users' rows are
inert for every property considered here.
-/

set_option autoImplicit false
set_option maxRecDepth 8000

/-- Module-level constant `MARKET_UPDATE_INTERVAL = 5.0` (seconds). -/
def MARKET_UPDATE_INTERVAL : ℚ := 5

/-- Module-level constant `CANDLE_BUCKET = 60.0` (seconds per candlestick). -/
def CANDLE_BUCKET : ℚ := 60

/-- Module-level constant `PRICE_HISTORY_LENGTH = 500` (ticks kept per symbol). -/
def PRICE_HISTORY_LENGTH : ℕ := 500

/-- Module-level constant `STARTING_CASH = 100000`. -/
def STARTING_CASH : ℚ := 100000

/-- The symbols of the module-level `STOCKS` list (the display names play no
role in any logic and are dropped). -/
def STOCKS : List String :=
  ["RELIANCE", "TCS", "INFY", "HDFCBANK", "ICICIBANK", "HDFC", "LT", "SBI",
   "KOTAKBANK", "AXISBANK", "ITC", "MARUTI", "BHARTIARTL", "SUNPHARMA",
   "TATAMOTORS"]

/-- One row of the `ticks` table for a fixed symbol: `(ts, price)`. -/
structure TickEntry where
  ts : ℚ
  price : ℚ
deriving DecidableEq, Repr

/-- One row of the `holdings` table for the modelled user:
`(symbol, shares, avg_price)`.  `shares` is an SQLite INTEGER. -/
structure Holding where
  symbol : String
  shares : ℤ
  avg_price : ℚ
deriving DecidableEq, Repr

/-- One row of the `trades` audit table for the modelled user (the wall-clock
ISO string `ts` carries no information used anywhere and is dropped). -/
structure TradeRec where
  symbol : String
  shares : ℤ
  price : ℚ
  side : String
deriving DecidableEq, Repr

/-- The database state visible to the core logic: the `ticks` table grouped by
symbol (each history in ts-ascending order), the modelled user's `cash` column,
holdings and trade rows, and the `metadata['market_open']` value (`none` when
the key is absent). -/
structure SimState where
  ticks : List (String × List TickEntry)
  cash : ℚ
  holdings : List Holding
  trades : List TradeRec
  meta : Option String
deriving DecidableEq, Repr

/-- Python `int(x)` applied to a JSON number: truncation toward zero
(`-⌊-q⌋` on the negatives; `Rat.floor` is the computable floor, equal to
Mathlib's `⌊·⌋` by `Rat.floor_def`). -/
def pythonInt (q : ℚ) : ℤ :=
  if 0 ≤ q then q.floor else -((-q).floor)

/-- Python `round(x, 2)`: rounding to the nearest multiple of 1/100, ties to
the even multiple (banker's rounding, idealised over exact rationals; away
from a tie the nearest integer to `s` is `⌊s + 1/2⌋`). -/
def round2 (p : ℚ) : ℚ :=
  let s : ℚ := p * 100
  let f : ℤ := s.floor
  let n : ℤ := if s - (f : ℚ) = 1/2 then (if f % 2 = 0 then f else f + 1) else (s + 1/2).floor
  (n : ℚ) / 100

/-- Lookup of one symbol's tick history in the grouped `ticks` table
(missing symbol: no rows). -/
def lookupTicks : List (String × List TickEntry) → String → List TickEntry
  | [], _ => []
  | (s, h) :: rest, sym => if s = sym then h else lookupTicks rest sym

/-- Replace (or create) one symbol's tick history in the grouped table. -/
def setTicks : List (String × List TickEntry) → String → List TickEntry →
    List (String × List TickEntry)
  | [], sym, h => [(sym, h)]
  | (s, h₀) :: rest, sym, h =>
    if s = sym then (sym, h) :: rest else (s, h₀) :: setTicks rest sym h

/-- The `ticks` rows of `st` for `sym`, in ts-ascending order. -/
def ticksFor (st : SimState) (sym : String) : List TickEntry :=
  lookupTicks st.ticks sym

/-- The `INSERT INTO ticks` of a row into the ts-ascending view of one
symbol's history (a new row with an equal timestamp lands after the old one,
matching a stable `ORDER BY ts`). -/
def insertByTs (t : TickEntry) : List TickEntry → List TickEntry
  | [] => [t]
  | x :: xs => if t.ts < x.ts then t :: x :: xs else x :: insertByTs t xs

/-- `append_tick(symbol, price, ts)` restricted to one symbol's history with
the retention cap `N` explicit: insert the row (price rounded to 2 decimals),
then delete the oldest-by-ts rows while the count exceeds `N`. -/
def append_tick (N : ℕ) (hist : List TickEntry) (ts price : ℚ) : List TickEntry :=
  let inserted := insertByTs ⟨ts, round2 price⟩ hist
  if inserted.length > N then inserted.drop (inserted.length - N) else inserted

/-- `get_latest_price(symbol)`: the price of the row with the greatest `ts`
(`ORDER BY ts DESC LIMIT 1`), or `None` if the symbol has no ticks. -/
def get_latest_price (hist : List TickEntry) : Option ℚ :=
  match hist.getLast? with
  | none => none
  | some tk => some tk.price

/-- A candle as built by `get_candles`: `{'t','open','high','low','close'}`
(the `open` key is named `opn`, `open` being reserved in Lean). -/
structure Candle where
  t : ℚ
  opn : ℚ
  high : ℚ
  low : ℚ
  close : ℚ
deriving DecidableEq, Repr

/-- The scanning loop of `get_candles`: walk the ts-ascending rows carrying
the open candle and its bucket index; when the bucket `⌊ts / W⌋` changes (or
no candle is open yet) emit the finished candle and open a fresh one at
`open = high = low = close = price`, `t = bucket * W`; otherwise update the
open candle's high/low/close.  The emitted list is exactly the Python
`candles` list at loop exit. -/
def candleLoop (W : ℚ) : List TickEntry → Option (ℤ × Candle) → List Candle
  | [], none => []
  | [], some (_, c) => [c]
  | tk :: rest, none =>
    let b : ℤ := (tk.ts / W).floor
    candleLoop W rest (some (b, ⟨(b : ℚ) * W, tk.price, tk.price, tk.price, tk.price⟩))
  | tk :: rest, some (bk, c) =>
    let b : ℤ := (tk.ts / W).floor
    if b = bk then
      candleLoop W rest
        (some (bk, { c with high := max c.high tk.price,
                            low := min c.low tk.price, close := tk.price }))
    else
      c :: candleLoop W rest
        (some (b, ⟨(b : ℚ) * W, tk.price, tk.price, tk.price, tk.price⟩))

/-- `get_candles(symbol, limit)`: filter one symbol's ts-ascending history to
`ts >= now - limit * CANDLE_BUCKET`, then run the candle scan. -/
def get_candles (now : ℚ) (limit : ℕ) (hist : List TickEntry) : List Candle :=
  let cutoff := now - (limit : ℚ) * CANDLE_BUCKET
  candleLoop CANDLE_BUCKET (hist.filter (fun tk => cutoff ≤ tk.ts)) none

/-- The state update of `append_tick(symbol, price, ts)` on the whole store. -/
def appendTickState (st : SimState) (sym : String) (price now : ℚ) : SimState :=
  { st with ticks :=
      setTicks st.ticks sym (append_tick PRICE_HISTORY_LENGTH (ticksFor st sym) now price) }

/-- The `market_open` parse of `market_tick`: `open_flag = True` unless a
metadata row exists with value exactly `'0'`. -/
def marketOpenFlag : Option String → Bool
  | some v => if v = "0" then false else true
  | none => true

/-- Outcome of one `market_tick` invocation: `ok` when the body ran to
completion (so the trailing `threading.Timer(...).start()` line executed) and
`raised` when an exception escaped the body (the Timer line is then never
reached).  Both carry the database state left behind — `append_tick` commits
per symbol, so appends made before a raise persist. -/
inductive TickOutcome where
  | ok (st : SimState)
  | raised (st : SimState)
deriving DecidableEq, Repr

/-- Whether the invocation scheduled the next interval. -/
def scheduledNext : TickOutcome → Bool
  | .ok _ => true
  | .raised _ => false

/-- The per-symbol loop body of `market_tick`, folded over a symbol list.
Reading the last price executes `c.fetchone()['price']`: when the symbol has
no ticks `fetchone()` returns `None` and the subscript raises `TypeError`,
which propagates (there is no try/except in `market_tick`).  `pcts sym` is the
sampled percentage move `pct` for `sym` (the two `random.gauss` draws),
passed in as an oracle. -/
def tickSyms (now : ℚ) (pcts : String → ℚ) : List String → SimState → TickOutcome
  | [], st => .ok st
  | sym :: rest, st =>
    match get_latest_price (ticksFor st sym) with
    | none => .raised st
    | some last =>
      let newp := max (1/100 : ℚ) (last * (1 + pcts sym))
      tickSyms now pcts rest (appendTickState st sym newp now)

/-- `market_tick()`: read the `market_open` flag; when open, walk `STOCKS`
appending one fresh tick per symbol; the final `threading.Timer(...)` line
runs only if no exception escaped the loop. -/
def market_tick (st : SimState) (now : ℚ) (pcts : String → ℚ) : TickOutcome :=
  if marketOpenFlag st.meta then tickSyms now pcts STOCKS st else .ok st

/-- The loop body of `market_tick` for one symbol's history, as a function of
that history alone (used to state what one round does per symbol). -/
def symTicked (now : ℚ) (pcts : String → ℚ) (sym : String)
    (hist : List TickEntry) : List TickEntry :=
  match get_latest_price hist with
  | none => hist
  | some last =>
    append_tick PRICE_HISTORY_LENGTH hist now (max (1/100 : ℚ) (last * (1 + pcts sym)))

/-- A parsed `/api/trade` request body (`data.get('shares', 0)` is a JSON
number, coerced with `int()` inside the handler). -/
structure TradeReq where
  symbol : String
  shares : ℚ
  side : String
deriving DecidableEq, Repr

/-- The error responses of `api_trade`, one constructor per `return jsonify`
error site. -/
inductive TradeErr where
  | invalidShares
  | invalidSide
  | unknownSymbol
  | priceUnavailable
  | insufficientCash (required available : ℚ)
  | notEnoughShares
deriving DecidableEq, Repr

/-- The three `api_trade` rejections the spec groups as InvalidInput. -/
def TradeErr.isInvalidInput : TradeErr → Bool
  | .invalidShares => true
  | .invalidSide => true
  | .unknownSymbol => true
  | _ => false

/-- Decidable equality of `Except` results, for evaluating the trade endpoint
on concrete inputs. -/
def exceptDecEq {ε α : Type} [DecidableEq ε] [DecidableEq α] :
    DecidableEq (Except ε α) := fun x y =>
  match x, y with
  | .ok a, .ok b => if h : a = b then .isTrue (by rw [h]) else .isFalse (by simp [h])
  | .error a, .error b => if h : a = b then .isTrue (by rw [h]) else .isFalse (by simp [h])
  | .ok _, .error _ => .isFalse (by simp)
  | .error _, .ok _ => .isFalse (by simp)

instance {ε α : Type} [DecidableEq ε] [DecidableEq α] : DecidableEq (Except ε α) :=
  exceptDecEq

/-- The success response of `api_trade`. -/
structure TradeOk where
  result : String
  symbol : String
  price : ℚ
  shares : ℤ
  cash : ℚ
deriving DecidableEq, Repr

/-- First `holdings` row of the modelled user for `sym` (`fetchone()` of the
symbol-filtered SELECT; SQLite returns rows in insertion order). -/
def findHolding : List Holding → String → Option Holding
  | [], _ => none
  | h :: rest, sym => if h.symbol = sym then some h else findHolding rest sym

/-- `UPDATE holdings ... WHERE id = h['id']`: replace the first row for `sym`. -/
def replaceFirstHolding : List Holding → String → Holding → List Holding
  | [], _, _ => []
  | h :: rest, sym, nh =>
    if h.symbol = sym then nh :: rest else h :: replaceFirstHolding rest sym nh

/-- `DELETE FROM holdings WHERE id = h['id']`: remove the first row for `sym`. -/
def removeFirstHolding : List Holding → String → List Holding
  | [], _ => []
  | h :: rest, sym => if h.symbol = sym then rest else h :: removeFirstHolding rest sym

/-- Number of `holdings` rows for `sym` (the program's merge-on-buy keeps
this at most 1; stated explicitly where a proof needs it). -/
def countHoldings : List Holding → String → ℕ
  | [], _ => 0
  | h :: rest, sym => (if h.symbol = sym then 1 else 0) + countHoldings rest sym

/-- `api_trade()` for the modelled (authenticated) user: validation in source
order, then the buy or sell settlement, returning the JSON response and the
committed state (errors leave the state untouched — every mutating statement
is followed by a single `db.commit()` on the success paths only). -/
def api_trade (st : SimState) (req : TradeReq) : Except TradeErr TradeOk × SimState :=
  let shares : ℤ := pythonInt req.shares
  if shares ≤ 0 then (.error .invalidShares, st)
  else if req.side ∉ (["buy", "sell"] : List String) then (.error .invalidSide, st)
  else if req.symbol ∉ STOCKS then (.error .unknownSymbol, st)
  else
    match get_latest_price (ticksFor st req.symbol) with
    | none => (.error .priceUnavailable, st)
    | some price =>
      if req.side = "buy" then
        let cost := price * (shares : ℚ)
        if st.cash < cost then (.error (.insufficientCash cost st.cash), st)
        else
          let new_cash := st.cash - cost
          match findHolding st.holdings req.symbol with
          | some h =>
            let total_shares := h.shares + shares
            let total_cost := h.avg_price * (h.shares : ℚ) + price * (shares : ℚ)
            let new_avg := total_cost / (total_shares : ℚ)
            (.ok ⟨"bought", req.symbol, price, shares, new_cash⟩,
             { st with cash := new_cash,
                       holdings := replaceFirstHolding st.holdings req.symbol
                         ⟨req.symbol, total_shares, new_avg⟩,
                       trades := st.trades ++ [⟨req.symbol, shares, price, "buy"⟩] })
          | none =>
            (.ok ⟨"bought", req.symbol, price, shares, new_cash⟩,
             { st with cash := new_cash,
                       holdings := st.holdings ++ [⟨req.symbol, shares, price⟩],
                       trades := st.trades ++ [⟨req.symbol, shares, price, "buy"⟩] })
      else
        match findHolding st.holdings req.symbol with
        | none => (.error .notEnoughShares, st)
        | some h =>
          if h.shares < shares then (.error .notEnoughShares, st)
          else
            let proceeds := price * (shares : ℚ)
            let new_cash := st.cash + proceeds
            let remaining := h.shares - shares
            let holdings' :=
              if remaining = 0 then removeFirstHolding st.holdings req.symbol
              else replaceFirstHolding st.holdings req.symbol
                ⟨h.symbol, remaining, h.avg_price⟩
            (.ok ⟨"sold", req.symbol, price, shares, new_cash⟩,
             { st with cash := new_cash, holdings := holdings',
                       trades := st.trades ++ [⟨req.symbol, shares, price, "sell"⟩] })

/-- Folding a request sequence through `api_trade` (rejected requests leave
the state unchanged, so the fold covers successful and failed trades alike). -/
def applyTrades (st : SimState) (reqs : List TradeReq) : SimState :=
  reqs.foldl (fun s r => (api_trade s r).2) st

/-- `admin_toggle()` on the stored `market_open` value: absent or `'1'` means
write `'0'` (reply `market closed`), anything else means write `'1'`. -/
def admin_toggle (meta : Option String) : Option String × String :=
  match meta with
  | none => (some "0", "market closed")
  | some v => if v = "1" then (some "0", "market closed") else (some "1", "market opened")

/-- `api_meta()`: the reported `market_open` value, `'1'` when the row is
absent. -/
def api_meta (meta : Option String) : String :=
  match meta with
  | none => "1"
  | some v => v

/-- Every tick price stored in `st` is non-negative (the program only stores
`round(·, 2)` of seed prices drawn from `[800, 3500]` or of
`max(0.01, last * (1 + pct))`, all positive). -/
def ticksNonneg (st : SimState) : Prop :=
  ∀ e ∈ st.ticks, ∀ tk ∈ e.2, 0 ≤ tk.price

/-- Running maximum of prices, as the fold the candle scan performs on `high`. -/
def highOf (p₀ : ℚ) (l : List TickEntry) : ℚ :=
  l.foldl (fun m tk => max m tk.price) p₀

/-- Running minimum of prices, the candle scan's fold on `low`. -/
def lowOf (p₀ : ℚ) (l : List TickEntry) : ℚ :=
  l.foldl (fun m tk => min m tk.price) p₀

/-- Price of the last tick, `p₀` when there is none (the scan's fold on
`close`). -/
def closeOf (p₀ : ℚ) (l : List TickEntry) : ℚ :=
  l.foldl (fun _ tk => tk.price) p₀

/-- The stored form of a submitted tick: `append_tick` rounds the price to
two decimals before inserting. -/
def roundedTick (tk : TickEntry) : TickEntry :=
  ⟨tk.ts, round2 tk.price⟩

/-- A zero price-move oracle for concrete runs of the simulator. -/
def zeroPct : String → ℚ := fun _ => 0

/-- A store with one seed tick per listed instrument and no market_open row. -/
def wsOpen : SimState :=
  { ticks := STOCKS.map (fun s => (s, [⟨0, 100⟩])), cash := 0, holdings := [],
    trades := [], meta := none }

/-- The same seeded store with the market closed (`market_open = '0'`). -/
def wsClosed : SimState :=
  { ticks := STOCKS.map (fun s => (s, [⟨0, 100⟩])), cash := 0, holdings := [],
    trades := [], meta := some "0" }

/-- A fresh store with no ticks at all and no market_open row. -/
def wsEmpty : SimState :=
  { ticks := [], cash := 0, holdings := [], trades := [], meta := none }

/-- A user with cash 1000, no holdings, and one TCS tick priced 100. -/
def wsTrade : SimState :=
  { ticks := [("TCS", [⟨0, 100⟩])], cash := 1000, holdings := [], trades := [],
    meta := some "1" }

/-- The same user already holding 3 TCS shares at average price 90. -/
def wsTradeH : SimState :=
  { wsTrade with holdings := [⟨"TCS", 3, 90⟩] }

/-- The computable floor used throughout agrees with Mathlib's `⌊·⌋`. -/
theorem floor_eq_ratFloor (q : ℚ) : ⌊q⌋ = q.floor := by
  rw [Rat.floor_def, Rat.floor_def']

example : pythonInt (27/10) = 2 := by with_unfolding_all decide
example : pythonInt (1/2) = 0 := by with_unfolding_all decide
example : pythonInt (-27/10) = -2 := by with_unfolding_all decide
example : round2 (1234/1000) = 123/100 := by with_unfolding_all decide
example : round2 (125/1000) = 12/100 := by with_unfolding_all decide
example : candleLoop 60 [⟨1, 100⟩, ⟨2, 101⟩, ⟨3, 99⟩] none =
    [⟨0, 100, 101, 99, 99⟩] := by with_unfolding_all decide

/-- Updating one symbol's history changes no other symbol's lookup. -/
theorem lookupTicks_setTicks (l : List (String × List TickEntry)) (sym s : String)
    (h : List TickEntry) :
    lookupTicks (setTicks l sym h) s = if s = sym then h else lookupTicks l s := by
  induction l with
  | nil =>
    simp only [setTicks, lookupTicks]
    by_cases hs : s = sym
    · subst hs; simp
    · rw [if_neg (fun hc => hs hc.symm), if_neg hs]
  | cons e rest ih =>
    obtain ⟨s₀, h₀⟩ := e
    by_cases h₁ : s₀ = sym
    · subst h₁
      simp only [setTicks, if_pos rfl, lookupTicks]
      by_cases hs : s = s₀
      · subst hs; simp
      · rw [if_neg (fun hc => hs hc.symm), if_neg hs,
            if_neg (fun hc => hs hc.symm)]
    · simp only [setTicks, if_neg h₁, lookupTicks]
      by_cases hs : s₀ = s
      · subst hs
        rw [if_pos rfl, if_neg h₁, if_pos rfl]
      · rw [if_neg hs, if_neg hs, ih]

theorem ticksFor_appendTickState (st : SimState) (sym s : String) (price now : ℚ) :
    ticksFor (appendTickState st sym price now) s =
      if s = sym then append_tick PRICE_HISTORY_LENGTH (ticksFor st sym) now price
      else ticksFor st s := by
  simp [ticksFor, appendTickState, lookupTicks_setTicks]

theorem appendTickState_cash (st : SimState) (sym : String) (price now : ℚ) :
    (appendTickState st sym price now).cash = st.cash := rfl

theorem insertByTs_length (t : TickEntry) (l : List TickEntry) :
    (insertByTs t l).length = l.length + 1 := by
  induction l with
  | nil => rfl
  | cons x xs ih =>
    simp only [insertByTs]
    split <;> simp [ih]

theorem insertByTs_ne_nil (t : TickEntry) (l : List TickEntry) : insertByTs t l ≠ [] := by
  have := insertByTs_length t l
  intro hcontra
  rw [hcontra] at this
  simp at this

/-- A tick no earlier than every stored one is inserted at the end. -/
theorem insertByTs_eq_append (t : TickEntry) (l : List TickEntry)
    (h : ∀ x ∈ l, ¬ t.ts < x.ts) : insertByTs t l = l ++ [t] := by
  induction l with
  | nil => rfl
  | cons x xs ih =>
    simp only [insertByTs]
    rw [if_neg (h x (by simp))]
    rw [ih (fun y hy => h y (by simp [hy]))]
    simp

theorem append_tick_ne_nil (N : ℕ) (hN : 0 < N) (hist : List TickEntry) (ts p : ℚ) :
    append_tick N hist ts p ≠ [] := by
  have hlen := insertByTs_length ⟨ts, round2 p⟩ hist
  simp only [append_tick]
  split
  · next hgt =>
    apply List.ne_nil_of_length_pos
    rw [List.length_drop]
    omega
  · next hle =>
    apply List.ne_nil_of_length_pos
    omega

theorem get_latest_price_eq_none {h : List TickEntry} :
    get_latest_price h = none ↔ h = [] := by
  unfold get_latest_price
  cases hl : h.getLast? with
  | none => simp [List.getLast?_eq_none_iff.mp hl]
  | some tk =>
    have : h ≠ [] := by
      intro hc
      rw [hc] at hl
      cases hl
    simp [this]

theorem get_latest_price_some {h : List TickEntry} (hne : h ≠ []) :
    ∃ p, get_latest_price h = some p := by
  cases hgl : get_latest_price h with
  | none => exact absurd (get_latest_price_eq_none.mp hgl) hne
  | some p => exact ⟨p, rfl⟩

theorem get_latest_price_mem {h : List TickEntry} {p : ℚ}
    (hp : get_latest_price h = some p) : ∃ tk ∈ h, tk.price = p := by
  unfold get_latest_price at hp
  cases hl : h.getLast? with
  | none => rw [hl] at hp; cases hp
  | some tk =>
    rw [hl] at hp
    cases hp
    obtain ⟨hh, htk⟩ := List.mem_getLast?_eq_getLast (x := tk) hl
    exact ⟨tk, htk ▸ List.getLast_mem hh, rfl⟩

theorem mem_lookupTicks {l : List (String × List TickEntry)} {sym : String}
    {tk : TickEntry} (h : tk ∈ lookupTicks l sym) : ∃ e ∈ l, tk ∈ e.2 := by
  induction l with
  | nil => cases h
  | cons e rest ih =>
    obtain ⟨s₀, h₀⟩ := e
    by_cases hs : s₀ = sym
    · rw [lookupTicks, if_pos hs] at h
      exact ⟨(s₀, h₀), by simp, h⟩
    · rw [lookupTicks, if_neg hs] at h
      obtain ⟨e', he', htk⟩ := ih h
      exact ⟨e', by simp [he'], htk⟩

/-- Every price the store can report is non-negative in a store whose ticks
all are. -/
theorem latest_price_nonneg {st : SimState} {sym : String} {p : ℚ}
    (hp : get_latest_price (ticksFor st sym) = some p) (hnn : ticksNonneg st) :
    0 ≤ p := by
  obtain ⟨tk, htk, rfl⟩ := get_latest_price_mem hp
  obtain ⟨e, he, hmem⟩ := mem_lookupTicks htk
  exact hnn e he tk hmem

theorem findHolding_symbol {l : List Holding} {sym : String} {h : Holding}
    (hf : findHolding l sym = some h) : h.symbol = sym := by
  induction l with
  | nil => cases hf
  | cons x rest ih =>
    by_cases hx : x.symbol = sym
    · simp only [findHolding, if_pos hx] at hf
      cases hf
      exact hx
    · simp only [findHolding, if_neg hx] at hf
      exact ih hf

theorem findHolding_replaceFirst {l : List Holding} {sym : String} (nh : Holding)
    (hnh : nh.symbol = sym) {h : Holding} (hf : findHolding l sym = some h) :
    findHolding (replaceFirstHolding l sym nh) sym = some nh := by
  induction l with
  | nil => cases hf
  | cons x rest ih =>
    by_cases hx : x.symbol = sym
    · simp only [replaceFirstHolding, if_pos hx, findHolding, if_pos hnh]
    · simp only [replaceFirstHolding, if_neg hx, findHolding, if_neg hx]
      simp only [findHolding, if_neg hx] at hf
      exact ih hf

theorem findHolding_append_none {l : List Holding} {sym : String}
    (hf : findHolding l sym = none) (nh : Holding) (hnh : nh.symbol = sym) :
    findHolding (l ++ [nh]) sym = some nh := by
  induction l with
  | nil => simp [findHolding, hnh]
  | cons x rest ih =>
    by_cases hx : x.symbol = sym
    · simp only [findHolding, if_pos hx] at hf
      cases hf
    · simp only [findHolding, if_neg hx] at hf
      simp only [List.cons_append, findHolding, if_neg hx]
      exact ih hf

theorem findHolding_none_of_count_zero {l : List Holding} {sym : String}
    (hc : countHoldings l sym = 0) : findHolding l sym = none := by
  induction l with
  | nil => rfl
  | cons x rest ih =>
    simp only [countHoldings] at hc
    by_cases hx : x.symbol = sym
    · rw [if_pos hx] at hc
      omega
    · rw [if_neg hx] at hc
      simp only [findHolding, if_neg hx]
      exact ih (by omega)

theorem findHolding_removeFirst {l : List Holding} {sym : String} {h : Holding}
    (hf : findHolding l sym = some h) (huniq : countHoldings l sym ≤ 1) :
    findHolding (removeFirstHolding l sym) sym = none := by
  induction l with
  | nil => cases hf
  | cons x rest ih =>
    by_cases hx : x.symbol = sym
    · simp only [removeFirstHolding, if_pos hx]
      simp only [countHoldings, if_pos hx] at huniq
      exact findHolding_none_of_count_zero (by omega)
    · simp only [removeFirstHolding, if_neg hx, findHolding, if_neg hx]
      simp only [findHolding, if_neg hx] at hf
      simp only [countHoldings, if_neg hx] at huniq
      exact ih hf (by omega)

/-- `api_trade` never touches the `ticks` table or the metadata row. -/
theorem api_trade_frame (st : SimState) (req : TradeReq) :
    (api_trade st req).2.ticks = st.ticks ∧ (api_trade st req).2.meta = st.meta := by
  simp only [api_trade]
  repeat' split
  all_goals exact ⟨rfl, rfl⟩

theorem ticksNonneg_api_trade {st : SimState} (req : TradeReq)
    (hnn : ticksNonneg st) : ticksNonneg (api_trade st req).2 := by
  unfold ticksNonneg
  rw [(api_trade_frame st req).1]
  exact hnn

/-- One call of the trade endpoint keeps cash non-negative: an unaffordable buy
is rejected before any write, and a sell only adds non-negative proceeds. -/
theorem api_trade_cash_nonneg (st : SimState) (req : TradeReq)
    (h0 : 0 ≤ st.cash) (hnn : ticksNonneg st) : 0 ≤ (api_trade st req).2.cash := by
  simp only [api_trade]
  split
  · exact h0
  next h1 =>
  split
  · exact h0
  split
  · exact h0
  split
  · exact h0
  next price hgl =>
  have hp : 0 ≤ price := latest_price_nonneg hgl hnn
  have hsh : (0 : ℚ) ≤ ((pythonInt req.shares : ℤ) : ℚ) := by
    have : 0 < pythonInt req.shares := by omega
    exact_mod_cast this.le
  split
  · split
    · exact h0
    next hcost =>
    split
    · show 0 ≤ st.cash - price * (pythonInt req.shares : ℚ)
      have := not_lt.mp hcost
      linarith
    · show 0 ≤ st.cash - price * (pythonInt req.shares : ℚ)
      have := not_lt.mp hcost
      linarith
  · split
    · exact h0
    split
    · exact h0
    · show 0 ≤ st.cash + price * (pythonInt req.shares : ℚ)
      have : 0 ≤ price * (pythonInt req.shares : ℚ) := mul_nonneg hp hsh
      linarith

/-- C1: starting from non-negative cash (all stored prices being non-negative,
as the generator guarantees), every sequence of buy/sell requests — rejected
or committed — leaves the cash balance non-negative; since the first conjunct
quantifies over all request sequences, it bounds the cash after every prefix,
i.e. after every committed trade.  Moreover a buy is rejected with the
insufficient-funds error, reporting required vs. available and writing
nothing, whenever cash < shares × latest price. -/
theorem cash_never_negative :
    (∀ (st : SimState) (reqs : List TradeReq), 0 ≤ st.cash → ticksNonneg st →
       0 ≤ (applyTrades st reqs).cash) ∧
    (∀ (st : SimState) (req : TradeReq) (p : ℚ),
       req.side = "buy" → 0 < pythonInt req.shares → req.symbol ∈ STOCKS →
       get_latest_price (ticksFor st req.symbol) = some p →
       st.cash < p * (pythonInt req.shares : ℚ) →
       api_trade st req =
         (.error (.insufficientCash (p * (pythonInt req.shares : ℚ)) st.cash), st)) := by
  constructor
  · intro st reqs
    induction reqs generalizing st with
    | nil => intro h0 _; exact h0
    | cons r rs ih =>
      intro h0 hnn
      simp only [applyTrades, List.foldl_cons]
      exact ih _ (api_trade_cash_nonneg st r h0 hnn) (ticksNonneg_api_trade r hnn)
  · intro st req p hside hpos hsym hp hcash
    simp only [api_trade, hp]
    rw [if_neg (by omega : ¬ pythonInt req.shares ≤ 0),
        if_neg (not_not_intro (by simp [hside])), if_neg (not_not_intro hsym),
        if_pos hside, if_pos hcash]

/-- C1 witness: with cash 1000 and TCS at 100, a buy of 3 then a sell of 2
leave cash non-negative, and a buy of 20 shares (cost 2000) is rejected with
the insufficient-funds error, leaving the state untouched. -/
theorem cash_never_negative_witness :
    0 ≤ (applyTrades wsTrade [⟨"TCS", 3, "buy"⟩, ⟨"TCS", 2, "sell"⟩]).cash ∧
    api_trade wsTrade ⟨"TCS", 20, "buy"⟩ =
      (.error (.insufficientCash (100 * ((pythonInt 20 : ℤ) : ℚ)) 1000), wsTrade) := by
  constructor
  · exact cash_never_negative.1 wsTrade _ (by with_unfolding_all decide)
      (by unfold ticksNonneg; with_unfolding_all decide)
  · exact cash_never_negative.2 wsTrade ⟨"TCS", 20, "buy"⟩ 100 rfl
      (by with_unfolding_all decide) (by with_unfolding_all decide)
      (by with_unfolding_all decide) (by with_unfolding_all decide)

/-- C8: a request whose coerced share count is non-positive, or whose side is
not buy/sell, or whose symbol is unknown, is rejected with one of the
invalid-input errors and the state — cash, holdings, everything — is returned
unchanged. -/
theorem trade_invalid_input_rejected (st : SimState) (req : TradeReq)
    (h : pythonInt req.shares ≤ 0 ∨ req.side ∉ (["buy", "sell"] : List String) ∨
      req.symbol ∉ STOCKS) :
    ∃ e : TradeErr, api_trade st req = (.error e, st) ∧ e.isInvalidInput = true := by
  simp only [api_trade]
  by_cases h1 : pythonInt req.shares ≤ 0
  · rw [if_pos h1]
    exact ⟨.invalidShares, rfl, rfl⟩
  · rw [if_neg h1]
    by_cases h2 : req.side ∉ (["buy", "sell"] : List String)
    · rw [if_pos h2]
      exact ⟨.invalidSide, rfl, rfl⟩
    · rw [if_neg h2]
      have h3 : req.symbol ∉ STOCKS := (h.resolve_left h1).resolve_left h2
      rw [if_pos h3]
      exact ⟨.unknownSymbol, rfl, rfl⟩

/-- C8 witness: a buy request for 0 shares against a funded account is
rejected with an invalid-input error and no state change. -/
theorem trade_invalid_input_rejected_witness :
    ∃ e : TradeErr, api_trade wsTrade ⟨"TCS", 0, "buy"⟩ = (.error e, wsTrade) ∧
      e.isInvalidInput = true :=
  trade_invalid_input_rejected wsTrade ⟨"TCS", 0, "buy"⟩
    (Or.inl (by with_unfolding_all decide))

/-- C10: the trade endpoint coerces the requested share count with `int()`
before validation: a request for 2.7 shares executes as a buy of exactly 2
shares (cash 1000 → 800 at price 100), and a request for 0.5 shares truncates
to 0 and is rejected as an invalid share count. -/
theorem trade_share_count_truncated :
    pythonInt (27/10) = 2 ∧ pythonInt (1/2) = 0 ∧
    api_trade wsTrade ⟨"TCS", 27/10, "buy"⟩ =
      (.ok ⟨"bought", "TCS", 100, 2, 800⟩,
       { wsTrade with cash := 800, holdings := [⟨"TCS", 2, 100⟩],
                      trades := [⟨"TCS", 2, 100, "buy"⟩] }) ∧
    api_trade wsTrade ⟨"TCS", 1/2, "buy"⟩ = (.error .invalidShares, wsTrade) := by
  refine ⟨?_, ?_, ?_, ?_⟩ <;> with_unfolding_all decide

/-- C3: a successful buy of `b` shares at latest price `pb` merges into an
existing holding of `a` shares at average `pa` as `a + b` shares at exactly
`(a·pa + b·pb)/(a + b)`, and creates a fresh holding of `b` shares at `pb`
when none exists. -/
theorem buy_merges_weighted_average (st : SimState) (req : TradeReq) (b : ℤ) (pb : ℚ)
    (hb : pythonInt req.shares = b) (hbpos : 0 < b) (hside : req.side = "buy")
    (hsym : req.symbol ∈ STOCKS)
    (hp : get_latest_price (ticksFor st req.symbol) = some pb)
    (hcash : ¬ st.cash < pb * (b : ℚ)) :
    (∀ (a : ℤ) (pa : ℚ), findHolding st.holdings req.symbol = some ⟨req.symbol, a, pa⟩ →
       (api_trade st req).2.holdings =
         replaceFirstHolding st.holdings req.symbol
           ⟨req.symbol, a + b, ((a : ℚ) * pa + (b : ℚ) * pb) / ((a : ℚ) + (b : ℚ))⟩ ∧
       findHolding (api_trade st req).2.holdings req.symbol =
         some ⟨req.symbol, a + b, ((a : ℚ) * pa + (b : ℚ) * pb) / ((a : ℚ) + (b : ℚ))⟩) ∧
    (findHolding st.holdings req.symbol = none →
       (api_trade st req).2.holdings = st.holdings ++ [⟨req.symbol, b, pb⟩] ∧
       findHolding (api_trade st req).2.holdings req.symbol = some ⟨req.symbol, b, pb⟩) := by
  constructor
  · intro a pa hf
    have havg : (pa * (a : ℚ) + pb * (b : ℚ)) / (((a + b : ℤ) : ℚ)) =
        ((a : ℚ) * pa + (b : ℚ) * pb) / ((a : ℚ) + (b : ℚ)) := by
      push_cast
      ring_nf
    have heq : api_trade st req =
        (.ok ⟨"bought", req.symbol, pb, b, st.cash - pb * (b : ℚ)⟩,
         { st with cash := st.cash - pb * (b : ℚ),
                   holdings := replaceFirstHolding st.holdings req.symbol
                     ⟨req.symbol, a + b, (pa * (a : ℚ) + pb * (b : ℚ)) / (((a + b : ℤ) : ℚ))⟩,
                   trades := st.trades ++ [⟨req.symbol, b, pb, "buy"⟩] }) := by
      simp only [api_trade, hp, hb, hf]
      rw [if_neg (by omega : ¬ b ≤ 0), if_neg (not_not_intro (by simp [hside])),
          if_neg (not_not_intro hsym), if_pos hside, if_neg hcash]
    constructor
    · rw [heq, havg]
    · rw [heq, havg]
      exact findHolding_replaceFirst _ rfl hf
  · intro hf
    have heq : api_trade st req =
        (.ok ⟨"bought", req.symbol, pb, b, st.cash - pb * (b : ℚ)⟩,
         { st with cash := st.cash - pb * (b : ℚ),
                   holdings := st.holdings ++ [⟨req.symbol, b, pb⟩],
                   trades := st.trades ++ [⟨req.symbol, b, pb, "buy"⟩] }) := by
      simp only [api_trade, hp, hb, hf]
      rw [if_neg (by omega : ¬ b ≤ 0), if_neg (not_not_intro (by simp [hside])),
          if_neg (not_not_intro hsym), if_pos hside, if_neg hcash]
    rw [heq]
    exact ⟨rfl, findHolding_append_none hf _ rfl⟩

/-- C3 witness: holding 3 TCS at 90, buying 2 at 100 yields 5 shares at the
exact weighted average 94; with no prior holding the buy creates 2 at 100. -/
theorem buy_merges_weighted_average_witness :
    findHolding (api_trade wsTradeH ⟨"TCS", 2, "buy"⟩).2.holdings "TCS" =
      some ⟨"TCS", 5, 94⟩ ∧
    findHolding (api_trade wsTrade ⟨"TCS", 2, "buy"⟩).2.holdings "TCS" =
      some ⟨"TCS", 2, 100⟩ := by
  constructor
  · have h := ((buy_merges_weighted_average wsTradeH ⟨"TCS", 2, "buy"⟩ 2 100
      (by with_unfolding_all decide) (by decide) rfl (by with_unfolding_all decide)
      (by with_unfolding_all decide) (by with_unfolding_all decide)).1 3 90
      (by with_unfolding_all decide)).2
    rw [h]
    norm_num
  · exact ((buy_merges_weighted_average wsTrade ⟨"TCS", 2, "buy"⟩ 2 100
      (by with_unfolding_all decide) (by decide) rfl (by with_unfolding_all decide)
      (by with_unfolding_all decide) (by with_unfolding_all decide)).2
      (by with_unfolding_all decide)).2

/-- A sell against a state with no holdings row for the symbol is rejected
with the not-enough-shares error and no state change. -/
theorem sell_without_holding_fails (st2 : SimState) (req' : TradeReq) (p : ℚ)
    (hp' : get_latest_price (ticksFor st2 req'.symbol) = some p)
    (hsym : req'.symbol ∈ STOCKS) (hside' : req'.side = "sell")
    (hpos' : 0 < pythonInt req'.shares)
    (hnone : findHolding st2.holdings req'.symbol = none) :
    api_trade st2 req' = (.error .notEnoughShares, st2) := by
  simp only [api_trade, hp']
  rw [if_neg (by omega : ¬ pythonInt req'.shares ≤ 0),
      if_neg (not_not_intro (by simp [hside'])), if_neg (not_not_intro hsym),
      if_neg (by simp [hside'])]
  simp only [hnone]

/-- C4: a successful sell of `s` shares from a holding `h` with at least `s`
shares credits cash by `price × s`; if the holding is exactly exhausted its
row is deleted (and a subsequent sell of the symbol fails with the
not-enough-shares error), otherwise the row keeps `h.shares − s` shares at an
unchanged average cost basis.  The one-row-per-symbol hypothesis is the
invariant the endpoint's merge-on-buy maintains. -/
theorem sell_credits_and_deletes (st : SimState) (req : TradeReq) (s : ℤ) (p : ℚ)
    (h : Holding)
    (hs : pythonInt req.shares = s) (hspos : 0 < s) (hside : req.side = "sell")
    (hsym : req.symbol ∈ STOCKS)
    (hp : get_latest_price (ticksFor st req.symbol) = some p)
    (hf : findHolding st.holdings req.symbol = some h)
    (hha : ¬ h.shares < s)
    (huniq : countHoldings st.holdings req.symbol ≤ 1) :
    (api_trade st req).1 = .ok ⟨"sold", req.symbol, p, s, st.cash + p * (s : ℚ)⟩ ∧
    (api_trade st req).2.cash = st.cash + p * (s : ℚ) ∧
    (h.shares - s = 0 →
       findHolding (api_trade st req).2.holdings req.symbol = none ∧
       ∀ req' : TradeReq, req'.symbol = req.symbol → req'.side = "sell" →
         0 < pythonInt req'.shares →
         api_trade (api_trade st req).2 req' =
           (.error .notEnoughShares, (api_trade st req).2)) ∧
    (¬ h.shares - s = 0 →
       (api_trade st req).2.holdings =
         replaceFirstHolding st.holdings req.symbol ⟨h.symbol, h.shares - s, h.avg_price⟩ ∧
       findHolding (api_trade st req).2.holdings req.symbol =
         some ⟨h.symbol, h.shares - s, h.avg_price⟩) := by
  have heq : api_trade st req =
      (.ok ⟨"sold", req.symbol, p, s, st.cash + p * (s : ℚ)⟩,
       { st with cash := st.cash + p * (s : ℚ),
                 holdings :=
                   if h.shares - s = 0 then removeFirstHolding st.holdings req.symbol
                   else replaceFirstHolding st.holdings req.symbol
                     ⟨h.symbol, h.shares - s, h.avg_price⟩,
                 trades := st.trades ++ [⟨req.symbol, s, p, "sell"⟩] }) := by
    simp only [api_trade, hp, hs, hf]
    rw [if_neg (by omega : ¬ s ≤ 0), if_neg (not_not_intro (by simp [hside])),
        if_neg (not_not_intro hsym), if_neg (by simp [hside]), if_neg hha]
  refine ⟨by rw [heq], by rw [heq], ?_, ?_⟩
  · intro hrem
    have hdel : (api_trade st req).2.holdings = removeFirstHolding st.holdings req.symbol := by
      rw [heq]
      simp [hrem]
    have hnone : findHolding (api_trade st req).2.holdings req.symbol = none := by
      rw [hdel]
      exact findHolding_removeFirst hf huniq
    refine ⟨hnone, ?_⟩
    intro req' hsym' hside' hpos'
    have hp' : get_latest_price (ticksFor (api_trade st req).2 req'.symbol) = some p := by
      unfold ticksFor
      rw [(api_trade_frame st req).1, hsym']
      exact hp
    exact sell_without_holding_fails _ req' p hp' (by rw [hsym']; exact hsym) hside' hpos'
      (by rw [hsym']; exact hnone)
  · intro hrem
    have hrep : (api_trade st req).2.holdings =
        replaceFirstHolding st.holdings req.symbol ⟨h.symbol, h.shares - s, h.avg_price⟩ := by
      rw [heq]
      simp [hrem]
    exact ⟨hrep, by
      rw [hrep]
      exact findHolding_replaceFirst ⟨h.symbol, h.shares - s, h.avg_price⟩
        (by simpa using findHolding_symbol hf) hf⟩

/-- C4 witness: holding 3 TCS at 90 and price 100, selling 3 credits 300,
removes the row, and a follow-up sell of 1 fails with the not-enough-shares
error; selling only 1 instead leaves 2 shares at the unchanged average 90. -/
theorem sell_credits_and_deletes_witness :
    (api_trade wsTradeH ⟨"TCS", 3, "sell"⟩).2.cash = 1000 + 100 * ((3 : ℤ) : ℚ) ∧
    findHolding (api_trade wsTradeH ⟨"TCS", 3, "sell"⟩).2.holdings "TCS" = none ∧
    api_trade (api_trade wsTradeH ⟨"TCS", 3, "sell"⟩).2 ⟨"TCS", 1, "sell"⟩ =
      (.error .notEnoughShares, (api_trade wsTradeH ⟨"TCS", 3, "sell"⟩).2) ∧
    findHolding (api_trade wsTradeH ⟨"TCS", 1, "sell"⟩).2.holdings "TCS" =
      some ⟨"TCS", 3 - 1, 90⟩ := by
  have h3 := sell_credits_and_deletes wsTradeH ⟨"TCS", 3, "sell"⟩ 3 100 ⟨"TCS", 3, 90⟩
    (by with_unfolding_all decide) (by decide) rfl (by with_unfolding_all decide)
    (by with_unfolding_all decide) (by with_unfolding_all decide) (by decide)
    (by with_unfolding_all decide)
  have h1 := sell_credits_and_deletes wsTradeH ⟨"TCS", 1, "sell"⟩ 1 100 ⟨"TCS", 3, 90⟩
    (by with_unfolding_all decide) (by decide) rfl (by with_unfolding_all decide)
    (by with_unfolding_all decide) (by with_unfolding_all decide) (by decide)
    (by with_unfolding_all decide)
  obtain ⟨hnone, hsub⟩ := h3.2.2.1 (by decide)
  exact ⟨h3.2.1, hnone, hsub ⟨"TCS", 1, "sell"⟩ rfl rfl (by with_unfolding_all decide),
    (h1.2.2.2 (by decide)).2⟩

/-- Definitional equation of the scan: empty input with an open candle emits
that candle. -/
theorem candleLoop_nil_some (W : ℚ) (b : ℤ) (c : Candle) :
    candleLoop W [] (some (b, c)) = [c] := rfl

/-- Definitional equation of the scan: the first tick opens a fresh candle at
its bucket index. -/
theorem candleLoop_cons_none (W : ℚ) (tk : TickEntry) (rest : List TickEntry) :
    candleLoop W (tk :: rest) none =
      candleLoop W rest (some ((tk.ts / W).floor,
        ⟨((tk.ts / W).floor : ℚ) * W, tk.price, tk.price, tk.price, tk.price⟩)) := rfl

/-- Definitional equation of the scan: with a candle open on bucket `bk`, a
matching tick folds into it and a non-matching tick emits it and opens a
fresh candle at the new index. -/
theorem candleLoop_cons_some (W : ℚ) (tk : TickEntry) (rest : List TickEntry)
    (bk : ℤ) (c : Candle) :
    candleLoop W (tk :: rest) (some (bk, c)) =
      if (tk.ts / W).floor = bk then
        candleLoop W rest (some (bk, { c with high := max c.high tk.price,
                                              low := min c.low tk.price,
                                              close := tk.price }))
      else
        c :: candleLoop W rest (some ((tk.ts / W).floor,
          ⟨((tk.ts / W).floor : ℚ) * W, tk.price, tk.price, tk.price, tk.price⟩)) := rfl

/-- While the open candle's bucket index `b` keeps matching, the scan folds
high/low/close into it; at the first tick of a different bucket (or at end of
input) the candle is emitted, and the rest of the output is exactly a fresh
scan of the remaining ticks — the scan opens a new candle there. -/
theorem candleLoop_run (W : ℚ) :
    ∀ (run rest : List TickEntry) (b : ℤ) (c : Candle),
      (∀ tk ∈ run, (tk.ts / W).floor = b) →
      (∀ tk ∈ rest.head?, (tk.ts / W).floor ≠ b) →
      candleLoop W (run ++ rest) (some (b, c)) =
        { c with high := highOf c.high run, low := lowOf c.low run,
                 close := closeOf c.close run } :: candleLoop W rest none := by
  intro run
  induction run with
  | nil =>
    intro rest b c _ hnext
    rw [List.nil_append]
    cases rest with
    | nil =>
      rw [candleLoop_nil_some]
      simp [candleLoop, highOf, lowOf, closeOf]
    | cons tk' rest' =>
      have hb' : (tk'.ts / W).floor ≠ b := hnext tk' rfl
      rw [candleLoop_cons_some, if_neg hb', candleLoop_cons_none]
      simp [highOf, lowOf, closeOf]
  | cons tk run' ih =>
    intro rest b c hrun hnext
    have hb : (tk.ts / W).floor = b := hrun tk (by simp)
    rw [List.cons_append, candleLoop_cons_some, if_pos hb]
    rw [ih rest b _ (fun y hy => hrun y (by simp [hy])) hnext]
    simp [highOf, lowOf, closeOf]

/-- C5: walking ticks in order, each tick lands in bucket `⌊ts / W⌋`.  Split
any tick sequence at a maximal-run boundary: a leading run confined to bucket
`b` followed by a remainder whose first tick (if any) has a different bucket
index.  The scan emits for the run exactly one candle — opened at the run's
first price with bucket start `b × W`, high/low the running max/min, close
its last price — and continues on the remainder as a fresh scan, i.e. opens a
new candle at the changed index; applied repeatedly this covers every
multi-bucket sequence.  In particular prices 100, 101, 99 inside one bucket
give the single candle `{open 100, high 101, low 99, close 99}`. -/
theorem candles_bucket_change (W : ℚ) (b : ℤ) (tk0 : TickEntry)
    (run rest : List TickEntry)
    (hrun : ∀ tk ∈ tk0 :: run, ⌊tk.ts / W⌋ = b)
    (hnext : ∀ tk ∈ rest.head?, ⌊tk.ts / W⌋ ≠ b) :
    candleLoop W ((tk0 :: run) ++ rest) none =
      ⟨(b : ℚ) * W, tk0.price, highOf tk0.price run, lowOf tk0.price run,
        closeOf tk0.price run⟩ :: candleLoop W rest none ∧
    candleLoop 60 [⟨1, 100⟩, ⟨2, 101⟩, ⟨3, 99⟩] none = [⟨0, 100, 101, 99, 99⟩] := by
  constructor
  · have hrun' : ∀ tk ∈ tk0 :: run, (tk.ts / W).floor = b := fun tk h => by
      rw [← floor_eq_ratFloor]
      exact hrun tk h
    have hnext' : ∀ tk ∈ rest.head?, (tk.ts / W).floor ≠ b := fun tk h => by
      rw [← floor_eq_ratFloor]
      exact hnext tk h
    have hb : (tk0.ts / W).floor = b := hrun' tk0 (by simp)
    rw [List.cons_append, candleLoop_cons_none, hb]
    rw [candleLoop_run W run rest b _ (fun y hy => hrun' y (by simp [hy])) hnext']
  · with_unfolding_all decide

/-- C5 witness: a two-bucket sequence — three ticks in bucket 0 followed by
one at ts 61 in bucket 1 — splits into the bucket-0 candle and a fresh scan
of the remainder; plus the one-bucket scenario. -/
theorem candles_bucket_change_witness :
    candleLoop 60 [⟨1, 100⟩, ⟨2, 101⟩, ⟨3, 99⟩, ⟨61, 105⟩] none =
      ⟨((0 : ℤ) : ℚ) * 60, 100, highOf 100 [⟨2, 101⟩, ⟨3, 99⟩],
        lowOf 100 [⟨2, 101⟩, ⟨3, 99⟩], closeOf 100 [⟨2, 101⟩, ⟨3, 99⟩]⟩ ::
        candleLoop 60 [⟨61, 105⟩] none ∧
    candleLoop 60 [⟨1, 100⟩, ⟨2, 101⟩, ⟨3, 99⟩] none = [⟨0, 100, 101, 99, 99⟩] :=
  candles_bucket_change 60 0 ⟨1, 100⟩ [⟨2, 101⟩, ⟨3, 99⟩] [⟨61, 105⟩]
    (by with_unfolding_all decide)
    (by
      intro tk htk
      have htk' : tk = ⟨61, 105⟩ := by simpa using htk.symm
      subst htk'
      with_unfolding_all decide)

/-- Folding `append_tick` over a ts-ascending tick sequence from an empty
store keeps exactly the last `min(length, N)` rows (prices rounded on entry). -/
theorem foldl_append_tick (N : ℕ) :
    ∀ (tks : List TickEntry), List.Pairwise (fun a b => a.ts < b.ts) tks →
      tks.foldl (fun hist tk => append_tick N hist tk.ts tk.price) [] =
        (tks.map roundedTick).drop (tks.length - N) := by
  intro tks
  induction tks using List.reverseRecOn with
  | nil => intro _; simp
  | append_singleton l t ih =>
    intro hpw
    rw [List.pairwise_append] at hpw
    obtain ⟨hl, -, hlt⟩ := hpw
    rw [List.foldl_append, ih hl]
    simp only [List.foldl_cons, List.foldl_nil]
    have hins : insertByTs ⟨t.ts, round2 t.price⟩
        ((l.map roundedTick).drop (l.length - N)) =
        (l.map roundedTick).drop (l.length - N) ++ [⟨t.ts, round2 t.price⟩] := by
      apply insertByTs_eq_append
      intro x hx
      obtain ⟨a, ha, rfl⟩ := List.mem_map.mp (List.mem_of_mem_drop hx)
      have hat := hlt a ha t (by simp)
      simp only [roundedTick]
      exact not_lt.mpr hat.le
    simp only [append_tick, hins, List.map_append]
    have hDlen : ((l.map roundedTick).drop (l.length - N)).length =
        l.length - (l.length - N) := by
      rw [List.length_drop, List.length_map]
    by_cases hmN : l.length < N
    · have hd0 : l.length - N = 0 := by omega
      rw [hd0, List.drop_zero]
      rw [if_neg (by rw [List.length_append, List.length_map]; simp; omega)]
      have h0 : (l ++ [t]).length - N = 0 := by rw [List.length_append]; simp; omega
      rw [h0, List.drop_zero]
      rfl
    · have hDN : ((l.map roundedTick).drop (l.length - N)).length = N := by omega
      have hcond : (((l.map roundedTick).drop (l.length - N)) ++
          [(⟨t.ts, round2 t.price⟩ : TickEntry)]).length > N := by
        rw [List.length_append, hDN]
        simp
      rw [if_pos hcond]
      have hdrop1 : (((l.map roundedTick).drop (l.length - N)) ++
          [(⟨t.ts, round2 t.price⟩ : TickEntry)]).length - N = 1 := by
        rw [List.length_append, hDN]
        simp
      rw [hdrop1]
      by_cases hN0 : N = 0
      · subst hN0
        have hDnil : (l.map roundedTick).drop (l.length - 0) = [] := by
          apply List.eq_nil_of_length_eq_zero
          omega
        rw [hDnil, List.nil_append]
        refine (List.drop_eq_nil_of_le ?_).symm
        rw [List.length_append, List.length_map, List.length_map,
            List.length_append]
        simp
      · have h1D : (1 : ℕ) ≤ ((l.map roundedTick).drop (l.length - N)).length := by omega
        rw [List.drop_append_of_le_length h1D, List.drop_drop]
        have harith : (l ++ [t]).length - N = l.length - N + 1 := by
          rw [List.length_append]
          simp
          omega
        rw [harith,
          List.drop_append_of_le_length (by rw [List.length_map]; omega)]
        simp [roundedTick]

/-- C6: after `N + k` appends of ts-ascending ticks to one symbol's empty
store, exactly `N` rows remain and they are the newest `N` by timestamp — the
last `N` appended rows (with prices rounded on entry), the trim having removed
oldest-first rows only. -/
theorem retention_keeps_newest (N k : ℕ) (tks : List TickEntry)
    (hsorted : List.Pairwise (fun a b => a.ts < b.ts) tks)
    (hlen : tks.length = N + k) :
    tks.foldl (fun hist tk => append_tick N hist tk.ts tk.price) [] =
      (tks.map roundedTick).drop k ∧
    (tks.foldl (fun hist tk => append_tick N hist tk.ts tk.price) []).length = N := by
  have h := foldl_append_tick N tks hsorted
  have hk : tks.length - N = k := by omega
  rw [hk] at h
  refine ⟨h, ?_⟩
  rw [h, List.length_drop, List.length_map]
  omega

/-- C6 witness: with retention cap 2, three ascending appends leave exactly
the last two rows. -/
theorem retention_keeps_newest_witness :
    ([⟨1, 100⟩, ⟨2, 101⟩, ⟨3, 102⟩] : List TickEntry).foldl
        (fun hist tk => append_tick 2 hist tk.ts tk.price) [] =
      (([⟨1, 100⟩, ⟨2, 101⟩, ⟨3, 102⟩] : List TickEntry).map roundedTick).drop 1 ∧
    (([⟨1, 100⟩, ⟨2, 101⟩, ⟨3, 102⟩] : List TickEntry).foldl
        (fun hist tk => append_tick 2 hist tk.ts tk.price) []).length = 2 :=
  retention_keeps_newest 2 1 [⟨1, 100⟩, ⟨2, 101⟩, ⟨3, 102⟩]
    (by with_unfolding_all decide) (by with_unfolding_all decide)

/-- The simulator's per-symbol loop raises (and leaves the remaining symbols
unprocessed) exactly when some listed symbol has no tick to read. -/
theorem tickSyms_raised_iff (now : ℚ) (pcts : String → ℚ) :
    ∀ (syms : List String) (st : SimState),
      (∃ stp, tickSyms now pcts syms st = .raised stp) ↔
        ∃ s ∈ syms, ticksFor st s = [] := by
  intro syms
  induction syms with
  | nil =>
    intro st
    simp [tickSyms]
  | cons sym rest ih =>
    intro st
    cases hl : get_latest_price (ticksFor st sym) with
    | none =>
      have hnil : ticksFor st sym = [] := get_latest_price_eq_none.mp hl
      simp only [tickSyms, hl]
      constructor
      · intro _
        exact ⟨sym, by simp, hnil⟩
      · intro _
        exact ⟨st, rfl⟩
    | some last =>
      have hne : ticksFor st sym ≠ [] := by
        intro hc
        rw [get_latest_price_eq_none.mpr hc] at hl
        cases hl
      simp only [tickSyms, hl]
      rw [ih]
      have hpt : ∀ s, ticksFor
          (appendTickState st sym (max (1/100 : ℚ) (last * (1 + pcts sym))) now) s = [] ↔
          ticksFor st s = [] := by
        intro s
        rw [ticksFor_appendTickState]
        by_cases hs : s = sym
        · rw [if_pos hs, hs]
          constructor
          · intro hc
            exact absurd hc (append_tick_ne_nil PRICE_HISTORY_LENGTH (by decide) _ _ _)
          · intro hc
            exact absurd hc hne
        · rw [if_neg hs]
      constructor
      · intro ⟨s, hm, hnil⟩
        exact ⟨s, by simp [hm], (hpt s).mp hnil⟩
      · intro ⟨s, hm, hnil⟩
        rcases List.mem_cons.mp hm with hse | hm'
        · exact absurd (hse ▸ hnil) hne
        · exact ⟨s, hm', (hpt s).mpr hnil⟩

/-- The per-symbol loop neither touches cash, holdings, trades, nor the
metadata row, and — on symbol lists without duplicates whose members all have
a prior tick — runs to completion, appending exactly one fresh tick per
listed symbol and leaving every other symbol's history unchanged. -/
theorem tickSyms_ok (now : ℚ) (pcts : String → ℚ) :
    ∀ (syms : List String) (st : SimState), syms.Nodup →
      (∀ s ∈ syms, ticksFor st s ≠ []) →
      ∃ st', tickSyms now pcts syms st = .ok st' ∧
        (∀ s ∈ syms, ticksFor st' s = symTicked now pcts s (ticksFor st s)) ∧
        (∀ s, s ∉ syms → ticksFor st' s = ticksFor st s) ∧
        st'.cash = st.cash ∧ st'.holdings = st.holdings ∧
        st'.trades = st.trades ∧ st'.meta = st.meta := by
  intro syms
  induction syms with
  | nil =>
    intro st _ _
    exact ⟨st, rfl, by simp, fun s _ => rfl, rfl, rfl, rfl, rfl⟩
  | cons sym rest ih =>
    intro st hnd hne
    obtain ⟨hsym_rest, hnd'⟩ := List.nodup_cons.mp hnd
    obtain ⟨p, hp⟩ := get_latest_price_some (hne sym (by simp))
    have hne₁ : ∀ s ∈ rest, ticksFor
        (appendTickState st sym (max (1/100 : ℚ) (p * (1 + pcts sym))) now) s ≠ [] := by
      intro s hs
      rw [ticksFor_appendTickState, if_neg (fun hc => hsym_rest (by rw [← hc]; exact hs))]
      exact hne s (by simp [hs])
    obtain ⟨st', h1, h2, h3, h4, h5, h6, h7⟩ :=
      ih (appendTickState st sym (max (1/100 : ℚ) (p * (1 + pcts sym))) now) hnd' hne₁
    refine ⟨st', ?_, ?_, ?_, ?_, ?_, ?_, ?_⟩
    · simp only [tickSyms, hp]
      exact h1
    · intro s hs
      rcases List.mem_cons.mp hs with hse | hm'
      · subst hse
        rw [h3 s hsym_rest, ticksFor_appendTickState, if_pos rfl]
        simp only [symTicked, hp]
      · rw [h2 s hm', ticksFor_appendTickState,
            if_neg (fun hc => hsym_rest (by rw [← hc]; exact hm'))]
    · intro s hs
      rw [h3 s (fun hc => hs (by simp [hc])), ticksFor_appendTickState,
          if_neg (fun hc => hs (by simp [hc]))]
    · rw [h4]; rfl
    · rw [h5]; rfl
    · rw [h6]; rfl
    · rw [h7]; rfl

/-- C2 counterexample: with the market open (no metadata row) and an empty
tick store, reading the first symbol's last price raises (`fetchone()` is
`None`), the exception escapes `market_tick`, and the next interval is NOT
scheduled — the claim that the timer always fires fails at this input. -/
theorem market_tick_crash_unscheduled :
    marketOpenFlag wsEmpty.meta = true ∧
    market_tick wsEmpty 0 zeroPct = .raised wsEmpty ∧
    scheduledNext (market_tick wsEmpty 0 zeroPct) = false := by
  refine ⟨rfl, ?_, ?_⟩ <;> with_unfolding_all decide

/-- C2 amended: `market_tick` has no try/except — the next timer is scheduled
exactly when the per-symbol work raises no error, i.e. unless the market is
open and some listed symbol has no tick to read; an error propagates out of
the invocation instead of being swallowed, and then no next interval is
scheduled. -/
theorem market_tick_schedule_iff (st : SimState) (now : ℚ) (pcts : String → ℚ) :
    scheduledNext (market_tick st now pcts) = true ↔
      ¬(marketOpenFlag st.meta = true ∧ ∃ s ∈ STOCKS, ticksFor st s = []) := by
  unfold market_tick
  by_cases hflag : marketOpenFlag st.meta = true
  · rw [if_pos hflag]
    have hiff := tickSyms_raised_iff now pcts STOCKS st
    cases ht : tickSyms now pcts STOCKS st with
    | ok st' =>
      constructor
      · intro _ hand
        obtain ⟨stp, hstp⟩ := hiff.mpr hand.2
        rw [ht] at hstp
        simp at hstp
      · intro _
        rfl
    | raised stp =>
      constructor
      · intro hc
        simp [scheduledNext] at hc
      · intro hn
        exact absurd ⟨hflag, hiff.mp ⟨stp, ht⟩⟩ hn
  · rw [if_neg hflag]
    constructor
    · intro _ hand
      exact hflag hand.1
    · intro _
      rfl

/-- C7: when the market-open flag reads closed, one simulator invocation
leaves the store byte-for-byte unchanged yet still schedules the next
interval; when it reads open (and every instrument has a prior tick, as the
seeding guarantees and appends preserve), the invocation runs to completion,
appends exactly one fresh tick per listed instrument — `append_tick` of the
new price at `now` — touches no other symbol, no account data and no
metadata, and schedules the next interval. -/
theorem market_tick_frame (st : SimState) (now : ℚ) (pcts : String → ℚ) :
    (marketOpenFlag st.meta = false →
       market_tick st now pcts = .ok st ∧
       scheduledNext (market_tick st now pcts) = true) ∧
    (marketOpenFlag st.meta = true → (∀ s ∈ STOCKS, ticksFor st s ≠ []) →
       ∃ st', market_tick st now pcts = .ok st' ∧
         scheduledNext (market_tick st now pcts) = true ∧
         (∀ s ∈ STOCKS, ∀ last, get_latest_price (ticksFor st s) = some last →
            ticksFor st' s = append_tick PRICE_HISTORY_LENGTH (ticksFor st s) now
              (max (1/100 : ℚ) (last * (1 + pcts s)))) ∧
         (∀ s, s ∉ STOCKS → ticksFor st' s = ticksFor st s) ∧
         st'.cash = st.cash ∧ st'.holdings = st.holdings ∧ st'.meta = st.meta) := by
  constructor
  · intro hcl
    unfold market_tick
    rw [hcl]
    simp [scheduledNext]
  · intro hop hne
    obtain ⟨st', h1, h2, h3, h4, h5, h6, h7⟩ :=
      tickSyms_ok now pcts STOCKS st (by decide) hne
    have hmt : market_tick st now pcts = .ok st' := by
      unfold market_tick
      rw [hop]
      simpa using h1
    refine ⟨st', hmt, by rw [hmt]; rfl, ?_, h3, h4, h5, h7⟩
    intro s hs last hlast
    rw [h2 s hs]
    simp only [symTicked, hlast]

/-- C7 witness: a seeded closed store is returned unchanged with the timer
re-armed; a seeded open store completes a round and re-arms the timer. -/
theorem market_tick_frame_witness :
    (market_tick wsClosed 0 zeroPct = .ok wsClosed ∧
     scheduledNext (market_tick wsClosed 0 zeroPct) = true) ∧
    (∃ st', market_tick wsOpen 5 zeroPct = .ok st' ∧
       scheduledNext (market_tick wsOpen 5 zeroPct) = true) := by
  constructor
  · exact (market_tick_frame wsClosed 0 zeroPct).1 (by with_unfolding_all decide)
  · obtain ⟨st', h1, h2, -⟩ := (market_tick_frame wsOpen 5 zeroPct).2
      (by with_unfolding_all decide) (by with_unfolding_all decide)
    exact ⟨st', h1, h2⟩

/-- C9: an absent `market_open` row counts as open everywhere — the flag the
simulator reads parses to open so the invocation runs the full per-symbol
round, the meta endpoint reports `'1'`, the first toggle of the absent flag
writes `'0'` (closed) — and the stored value closes the market only when it
is exactly the string `'0'`. -/
theorem market_open_absent_means_open :
    marketOpenFlag none = true ∧
    (∀ (st : SimState) (now : ℚ) (pcts : String → ℚ), st.meta = none →
       market_tick st now pcts = tickSyms now pcts STOCKS st) ∧
    api_meta none = "1" ∧
    (admin_toggle none).1 = some "0" ∧
    (∀ v : String, marketOpenFlag (some v) = false ↔ v = "0") := by
  refine ⟨rfl, ?_, rfl, rfl, ?_⟩
  · intro st now pcts hmeta
    unfold market_tick
    rw [hmeta]
    rfl
  · intro v
    by_cases hv : v = "0"
    · subst hv
      simp [marketOpenFlag]
    · simp [marketOpenFlag, hv]

/-- C9 witness: with no metadata row the simulator takes the open branch, and
the value `'0'` is the one closed reading. -/
theorem market_open_absent_means_open_witness :
    market_tick wsOpen 5 zeroPct = tickSyms 5 zeroPct STOCKS wsOpen ∧
    (marketOpenFlag (some "0") = false ↔ ("0" : String) = "0") :=
  ⟨market_open_absent_means_open.2.1 wsOpen 5 zeroPct rfl,
   market_open_absent_means_open.2.2.2.2 "0"⟩
